import Mathlib

/-!
Verification development for the core of a conditional-GAN tabular-data
synthesizer (CTGAN-style), as described by the repository's design
specification.  The repository itself ships only a demonstration notebook
that drives the engine through its public interface (`fit`, `sample`,
diagnostics); the engine's own code is not part of the repository.  Every
definition below is therefore modelled from the specification text: the
data model (Modes, column blocks, transformed rows), the column encoder
(mode-specific normalization), the conditional sampler
(training-by-sampling), the training loop state machine, and the
inference sampler.

The file is organised as definitions first, then theorems.
-/

namespace CTGAN

/-! ## Definitions: data model and column encoder -/

/-- Modelled from the spec: one component of the variational Gaussian
mixture fitted to a continuous column — `{weight ≥ 0, mean, std > 0}`.
The fitting procedure itself is not in the repository. -/
structure Mode where
  weight : ℚ
  mean : ℚ
  std : ℚ
deriving DecidableEq

/-- Fallback mode used for out-of-range lookups only. -/
def defaultMode : Mode := ⟨1, 0, 1⟩

/-- Modelled from the spec: arg-max over a list of scores with ties broken
by the lowest index.  This is the deterministic selection rule used both
for "the Mode most likely to have generated the value" (on posterior
scores) and for decoding a block by arg-max (a softmax is strictly
monotone, so the arg-max of the softmax of a block equals the arg-max of
the raw block). -/
def selectMode : List ℚ → ℕ
  | [] => 0
  | [_] => 0
  | x :: y :: ys =>
    let j := selectMode (y :: ys)
    if x < (y :: ys).getD j 0 then j + 1 else 0

/-- `i` is the index of a maximal score, and the first such index. -/
def IsArgmaxLowest (scores : List ℚ) (i : ℕ) : Prop :=
  i < scores.length ∧ (∀ j, j < scores.length → scores.getD j 0 ≤ scores.getD i 0) ∧
    ∀ j, j < i → scores.getD j 0 < scores.getD i 0

/-- Modelled from the spec: the one-hot vector of length `k` with a `1`
at index `i` (all zeros when `i ≥ k`). -/
def oneHot : ℕ → ℕ → List ℚ
  | 0, _ => []
  | k + 1, 0 => 1 :: oneHot k (k + 1)
  | k + 1, i + 1 => 0 :: oneHot k i

/-- Modelled from the spec: clamp a normalized scalar into `[-1, 1]`. -/
def clip (x : ℚ) : ℚ := max (-1) (min 1 x)

/-- Modelled from the spec: the transformed representation stores each
normalized scalar at a fixed binary precision of `p` fractional bits
(the round-trip property speaks of a `2^-(precision)` resolution). -/
def quantize (p : ℕ) (x : ℚ) : ℚ := (round (x * 2 ^ p) : ℤ) / 2 ^ p

/-- Modelled from the spec: `encode_continuous(value, modes)` selects the
Mode most likely to have generated `value` — the posterior scores over
the fitted modes are supplied as a list (the Gaussian density
computation is part of the absent fitting code) — computes the
normalized scalar `clip((value - mean)/(4*std), -1, 1)` for the selected
mode, and returns `(scalar, one_hot(selected_mode))`. -/
def encode_continuous (scores : List ℚ) (v : ℚ) (modes : List Mode) : ℚ × List ℚ :=
  let i := selectMode scores
  let m := modes.getD i defaultMode
  (clip ((v - m.mean) / (4 * m.std)), oneHot modes.length i)

/-- Modelled from the spec: `decode_continuous(scalar, one_hot, modes)`
selects the mode from the block by arg-max and reconstructs
`value = mean + scalar * 4 * std`. -/
def decode_continuous (scalar : ℚ) (oh : List ℚ) (modes : List Mode) : ℚ :=
  let m := modes.getD (selectMode oh) defaultMode
  m.mean + scalar * (4 * m.std)

/-- Modelled from the spec: a discrete category encodes as a one-hot
vector over the fixed category order. -/
def encode_discrete (numCats i : ℕ) : List ℚ := oneHot numCats i

/-- Modelled from the spec: a discrete block decodes by arg-max (the
arg-max of a softmax over the block equals the arg-max of the block). -/
def decode_discrete (block : List ℚ) : ℕ := selectMode block

/-! ## Definitions: table transformer -/

/-- Modelled from the spec: rendering a datetime value through the
column's declared `datetime_format`; the rendered text is abstracted as
the digit sequence of the timestamp in the format's radix. -/
def formatDT (fmt : ℕ) (t : ℕ) : List ℕ := Nat.digits fmt t

/-- Modelled from the spec: parsing a rendered datetime back to its
timestamp under the declared format. -/
def parseDT (fmt : ℕ) (ds : List ℕ) : ℕ := Nat.ofDigits fmt ds

/-- Modelled from the spec: the per-column encoding kind recorded by the
fitted Table Transformer — continuous and datetime columns carry their
fitted Mode set, discrete columns their category count, datetime columns
additionally their declared format. -/
inductive ColKind where
  | continuous (modes : List Mode)
  | discrete (numCats : ℕ)
  | datetime (modes : List Mode) (fmt : ℕ)
deriving DecidableEq

/-- Modelled from the spec: a `ColumnSpec` — name plus encoding kind,
immutable once fitted. -/
structure ColSpec where
  colName : String
  kind : ColKind
deriving DecidableEq

/-- Modelled from the spec: one logical cell of a table row. -/
inductive Val where
  | cont (x : ℚ)
  | cat (i : ℕ)
  | dt (ds : List ℕ)
deriving DecidableEq

/-- The width of a column's block inside the transformed row:
`[scalar, one_hot_over_modes]` for continuous/datetime,
`[one_hot_over_categories]` for discrete.  Fixed once fitted. -/
def ColKind.width : ColKind → ℕ
  | .continuous modes => 1 + modes.length
  | .discrete numCats => numCats
  | .datetime modes _ => 1 + modes.length

/-- Total width of a transformed row for a fitted schema. -/
def rowWidth (schema : List ColSpec) : ℕ :=
  (schema.map (fun c => c.kind.width)).sum

/-- A posterior-score assignment: for each value and fitted Mode set, the
list of posterior scores of the modes.  Modelled from the spec: the
Gaussian posterior computation lives in the absent fitting code, so it
is kept abstract; every theorem below holds for any score assignment. -/
def PosteriorFn : Type := ℚ → List Mode → List ℚ

/-- Score assignments must score exactly the given modes. -/
def PosteriorOK (post : PosteriorFn) : Prop :=
  ∀ v modes, (post v modes).length = modes.length

/-- A concrete score assignment (mode weights as scores), used to
instantiate theorems on concrete inputs. -/
def priors : PosteriorFn := fun _ modes => modes.map Mode.weight

/-- The mode assigned to a continuous value: the arg-max of its posterior
scores (lowest index on ties). -/
def assignedMode (post : PosteriorFn) (v : ℚ) (modes : List Mode) : Mode :=
  modes.getD (selectMode (post v modes)) defaultMode

/-- Modelled from the spec: encode one cell into its column block; the
continuous scalar is stored at `p` fractional bits.  A cell whose shape
disagrees with the column kind yields a zero block of the right width
(rows are well-typed in all theorems below). -/
def encodeCell (p : ℕ) (post : PosteriorFn) : ColKind → Val → List ℚ
  | .continuous modes, .cont v =>
    let e := encode_continuous (post v modes) v modes
    quantize p e.1 :: e.2
  | .discrete numCats, .cat i => encode_discrete numCats i
  | .datetime modes fmt, .dt ds =>
    let v : ℚ := (parseDT fmt ds : ℕ)
    let e := encode_continuous (post v modes) v modes
    quantize p e.1 :: e.2
  | k, _ => List.replicate k.width 0

/-- Modelled from the spec: decode one column block back to a cell. -/
def decodeCell : ColKind → List ℚ → Val
  | .continuous modes, block => .cont (decode_continuous (block.headD 0) block.tail modes)
  | .discrete _, block => .cat (decode_discrete block)
  | .datetime modes fmt, block =>
    .dt (formatDT fmt (Int.toNat ⌊decode_continuous (block.headD 0) block.tail modes⌋))

/-- Modelled from the spec: `encode` concatenates per-column blocks in
schema order into one TransformedRow. -/
def encodeRow (p : ℕ) (post : PosteriorFn) : List ColSpec → List Val → List ℚ
  | [], _ => []
  | _ :: _, [] => []
  | c :: cs, v :: vs => encodeCell p post c.kind v ++ encodeRow p post cs vs

/-- Modelled from the spec: `decode` splits the transformed row at the
recorded block offsets and decodes column by column. -/
def decodeRow : List ColSpec → List ℚ → List Val
  | [], _ => []
  | c :: cs, data =>
    decodeCell c.kind (data.take c.kind.width) :: decodeRow cs (data.drop c.kind.width)

/-- Modelled from the spec: `encode(table)` maps row encoding over the
table. -/
def encodeTable (p : ℕ) (post : PosteriorFn) (schema : List ColSpec)
    (rows : List (List Val)) : List (List ℚ) :=
  rows.map (encodeRow p post schema)

/-- Modelled from the spec: `decode(matrix)` maps row decoding over the
matrix. -/
def decodeTable (schema : List ColSpec) (matrix : List (List ℚ)) : List (List Val) :=
  matrix.map (decodeRow schema)

/-! ## Definitions: typing and round-trip predicates -/

/-- A fitted column kind is valid: a nonempty mode set with positive
standard deviations, or a positive category count. -/
def ColKind.Valid : ColKind → Prop
  | .continuous modes => modes ≠ [] ∧ ∀ m ∈ modes, 0 < m.std
  | .discrete numCats => 0 < numCats
  | .datetime modes _ => modes ≠ [] ∧ ∀ m ∈ modes, 0 < m.std

/-- The column is not a datetime column. -/
def ColKind.DatetimeFree : ColKind → Prop
  | .datetime _ _ => False
  | _ => True

/-- A cell has the shape its column kind requires (a category index must
be in range). -/
def CellMatches : ColKind → Val → Prop
  | .continuous _, .cont _ => True
  | .discrete numCats, .cat i => i < numCats
  | .datetime _ _, .dt _ => True
  | _, _ => False

/-- A continuous cell lies inside the normalization range
`[mean - 4*std, mean + 4*std]` of its assigned mode. -/
def CellInRange (post : PosteriorFn) : ColKind → Val → Prop
  | .continuous modes, .cont v =>
    |v - (assignedMode post v modes).mean| ≤ 4 * (assignedMode post v modes).std
  | _, _ => True

/-- The decoded cell reproduces the original: exactly for discrete cells,
within `4 * std_of_assigned_mode * 2^-(precision)` for continuous
cells. -/
def CellClose (p : ℕ) (post : PosteriorFn) : ColKind → Val → Val → Prop
  | .continuous modes, .cont v, .cont w =>
    |w - v| ≤ 4 * (assignedMode post v modes).std / 2 ^ p
  | .discrete _, .cat i, .cat j => j = i
  | _, _, _ => False

/-- Every cell of the row matches its column. -/
def RowTyped : List ColSpec → List Val → Prop
  | [], [] => True
  | c :: cs, v :: vs => CellMatches c.kind v ∧ RowTyped cs vs
  | _, _ => False

/-- Every continuous cell of the row is within its assigned mode's
normalization range. -/
def RowInRange (post : PosteriorFn) : List ColSpec → List Val → Prop
  | [], [] => True
  | c :: cs, v :: vs => CellInRange post c.kind v ∧ RowInRange post cs vs
  | _, _ => False

/-- Pointwise `CellClose` over a row. -/
def RowClose (p : ℕ) (post : PosteriorFn) (schema : List ColSpec) :
    List Val → List Val → Prop :=
  fun row drow =>
    match schema, row, drow with
    | [], [], [] => True
    | c :: cs, v :: vs, w :: ws => CellClose p post c.kind v w ∧ RowClose p post cs vs ws
    | _, _, _ => False

/-- Pointwise `RowClose` over a table. -/
def TableClose (p : ℕ) (post : PosteriorFn) (schema : List ColSpec) :
    List (List Val) → List (List Val) → Prop
  | [], [] => True
  | r :: rs, d :: ds => RowClose p post schema r d ∧ TableClose p post schema rs ds
  | _, _ => False

/-- Every column of the fitted schema is valid. -/
def SchemaValid (schema : List ColSpec) : Prop := ∀ c ∈ schema, c.kind.Valid

/-- The schema has no datetime column. -/
def SchemaDatetimeFree (schema : List ColSpec) : Prop := ∀ c ∈ schema, c.kind.DatetimeFree

instance instDecValid : (k : ColKind) → Decidable k.Valid
  | .continuous modes => inferInstanceAs (Decidable (modes ≠ [] ∧ ∀ m ∈ modes, 0 < m.std))
  | .discrete numCats => inferInstanceAs (Decidable (0 < numCats))
  | .datetime modes _ => inferInstanceAs (Decidable (modes ≠ [] ∧ ∀ m ∈ modes, 0 < m.std))

instance instDecDatetimeFree : (k : ColKind) → Decidable k.DatetimeFree
  | .continuous _ => .isTrue ⟨⟩
  | .discrete _ => .isTrue ⟨⟩
  | .datetime _ _ => .isFalse fun h => h

instance instDecSchemaValid (schema : List ColSpec) : Decidable (SchemaValid schema) :=
  inferInstanceAs (Decidable (∀ c ∈ schema, c.kind.Valid))

instance instDecSchemaDatetimeFree (schema : List ColSpec) :
    Decidable (SchemaDatetimeFree schema) :=
  inferInstanceAs (Decidable (∀ c ∈ schema, c.kind.DatetimeFree))

instance instDecCellMatches : (k : ColKind) → (v : Val) → Decidable (CellMatches k v)
  | .continuous _, .cont _ => .isTrue ⟨⟩
  | .continuous _, .cat _ => .isFalse fun h => h
  | .continuous _, .dt _ => .isFalse fun h => h
  | .discrete _, .cont _ => .isFalse fun h => h
  | .discrete numCats, .cat i => inferInstanceAs (Decidable (i < numCats))
  | .discrete _, .dt _ => .isFalse fun h => h
  | .datetime _ _, .cont _ => .isFalse fun h => h
  | .datetime _ _, .cat _ => .isFalse fun h => h
  | .datetime _ _, .dt _ => .isTrue ⟨⟩

instance instDecCellInRange (post : PosteriorFn) :
    (k : ColKind) → (v : Val) → Decidable (CellInRange post k v)
  | .continuous modes, .cont v =>
    inferInstanceAs
      (Decidable (|v - (assignedMode post v modes).mean| ≤ 4 * (assignedMode post v modes).std))
  | .continuous _, .cat _ => .isTrue ⟨⟩
  | .continuous _, .dt _ => .isTrue ⟨⟩
  | .discrete _, _ => .isTrue ⟨⟩
  | .datetime _ _, _ => .isTrue ⟨⟩

instance instDecCellClose (p : ℕ) (post : PosteriorFn) :
    (k : ColKind) → (v w : Val) → Decidable (CellClose p post k v w)
  | .continuous modes, .cont v, .cont w =>
    inferInstanceAs (Decidable (|w - v| ≤ 4 * (assignedMode post v modes).std / 2 ^ p))
  | .continuous _, .cont _, .cat _ => .isFalse fun h => h
  | .continuous _, .cont _, .dt _ => .isFalse fun h => h
  | .continuous _, .cat _, _ => .isFalse fun h => h
  | .continuous _, .dt _, _ => .isFalse fun h => h
  | .discrete _, .cat i, .cat j => inferInstanceAs (Decidable (j = i))
  | .discrete _, .cat _, .cont _ => .isFalse fun h => h
  | .discrete _, .cat _, .dt _ => .isFalse fun h => h
  | .discrete _, .cont _, _ => .isFalse fun h => h
  | .discrete _, .dt _, _ => .isFalse fun h => h
  | .datetime _ _, _, _ => .isFalse fun h => h

instance instDecRowTyped : (schema : List ColSpec) → (row : List Val) → Decidable (RowTyped schema row)
  | [], [] => .isTrue ⟨⟩
  | [], _ :: _ => .isFalse fun h => h
  | _ :: _, [] => .isFalse fun h => h
  | c :: cs, v :: vs =>
    @instDecidableAnd _ _ (instDecCellMatches c.kind v) (instDecRowTyped cs vs)

instance instDecRowInRange (post : PosteriorFn) :
    (schema : List ColSpec) → (row : List Val) → Decidable (RowInRange post schema row)
  | [], [] => .isTrue ⟨⟩
  | [], _ :: _ => .isFalse fun h => h
  | _ :: _, [] => .isFalse fun h => h
  | c :: cs, v :: vs =>
    @instDecidableAnd _ _ (instDecCellInRange post c.kind v) (instDecRowInRange post cs vs)

instance instDecRowClose (p : ℕ) (post : PosteriorFn) :
    (schema : List ColSpec) → (row drow : List Val) → Decidable (RowClose p post schema row drow)
  | [], [], [] => .isTrue ⟨⟩
  | [], [], _ :: _ => .isFalse fun h => h
  | [], _ :: _, _ => .isFalse fun h => h
  | _ :: _, [], _ => .isFalse fun h => h
  | _ :: _, _ :: _, [] => .isFalse fun h => h
  | c :: cs, v :: vs, w :: ws =>
    @instDecidableAnd _ _ (instDecCellClose p post c.kind v w) (instDecRowClose p post cs vs ws)

instance instDecTableClose (p : ℕ) (post : PosteriorFn) (schema : List ColSpec) :
    (rows drows : List (List Val)) → Decidable (TableClose p post schema rows drows)
  | [], [] => .isTrue ⟨⟩
  | [], _ :: _ => .isFalse fun h => h
  | _ :: _, [] => .isFalse fun h => h
  | r :: rs, d :: ds =>
    @instDecidableAnd _ _ (instDecRowClose p post schema r d) (instDecTableClose p post schema rs ds)

/-! ## Definitions: conditional sampler (training-by-sampling) -/

/-- Modelled from the spec: the rows of the real transformed data,
restricted to their discrete columns — one category index per discrete
column per row. -/
def matchingRows (rows : List (List ℕ)) (col cat : ℕ) : List (List ℕ) :=
  rows.filter (fun r => r.getD col 0 == cat)

/-- Real-data occurrence count of a `(column, category)` pair. -/
def freq (rows : List (List ℕ)) (col cat : ℕ) : ℕ :=
  (matchingRows rows col cat).length

/-- Modelled from the spec: the selection weight of a category with
real-data frequency `f` under training-by-sampling is `log(1 + f)` —
never the raw frequency. -/
noncomputable def selWeight (f : ℕ) : ℝ := Real.log (1 + f)

/-- Modelled from the spec: the probability that `build_batch` selects
category `c` once its column (with per-category frequency table `freqs`)
has been chosen: proportional to `log(1 + frequency)`. -/
noncomputable def selProb (freqs : List ℕ) (c : ℕ) : ℝ :=
  selWeight (freqs.getD c 0) / ((freqs.map selWeight).sum)

/-- The `CategoryFrequencyTable` entry of one discrete column: the
occurrence count of each of its categories. -/
def columnFreqs (rows : List (List ℕ)) (col numCats : ℕ) : List ℕ :=
  (List.range numCats).map (fun cat => freq rows col cat)

/-- Error raised when a selected category has no supporting rows. -/
inductive EmptyCategoryError where
  | emptyCategory (col cat : ℕ)
deriving DecidableEq

/-- Modelled from the spec: fill one batch slot of `build_batch`.  The
injected random source has supplied the choice `(column, category,
row-pick)`; the slot draws one real row uniformly among the rows
matching the pair, and fails with `EmptyCategoryError` when no row
matches. -/
def drawSlot (rows : List (List ℕ)) (choice : ℕ × ℕ × ℕ) :
    Except EmptyCategoryError (List ℕ) :=
  match choice with
  | (col, cat, rpick) =>
    let ms := matchingRows rows col cat
    if ms.isEmpty then .error (.emptyCategory col cat)
    else .ok (ms.getD (rpick % ms.length) [])

/-- Modelled from the spec: `build_batch(batch_size)` — one `(column,
category, row-pick)` choice per example slot, the column uniform among
discrete columns and the category drawn with probability `selProb` of
its column's `CategoryFrequencyTable`; each slot draws a matching real
row via `drawSlot`. -/
def build_batch (rows : List (List ℕ)) :
    List (ℕ × ℕ × ℕ) → Except EmptyCategoryError (List (List ℕ))
  | [] => .ok []
  | ch :: rest =>
    match drawSlot rows ch, build_batch rows rest with
    | .ok r, .ok rs => .ok (r :: rs)
    | .error e, _ => .error e
    | .ok _, .error e => .error e

/-! ## Definitions: training loop state machine -/

/-- Modelled from the spec: the training configuration —
`{epochs > 0, batch_size > 0 divisible by pac, pac ≥ 1, criticSteps}`
(`criticSteps` is the number `k` of critic updates per outer
iteration). -/
structure TrainConfig where
  epochs : ℕ
  batchSize : ℕ
  pac : ℕ
  criticSteps : ℕ
deriving DecidableEq

/-- Modelled from the spec: the default configuration — `epochs = 300`,
`pac = 10`, `k = 5` critic updates per generator update. -/
def TrainConfig.defaults (batchSize : ℕ) : TrainConfig :=
  ⟨300, batchSize, 10, 5⟩

/-- Configuration errors detected before any training step. -/
inductive ConfigError where
  | pacDivisibility
  | zeroPac
  | zeroEpochs
  | zeroBatch
deriving DecidableEq

/-- Modelled from the spec: constructing the Training Loop validates the
configuration before any step runs; in particular `batch_size` must be
divisible by `pac` (PacGAN grouping). -/
def validateConfig (cfg : TrainConfig) : Except ConfigError Unit :=
  if cfg.batchSize % cfg.pac ≠ 0 then .error .pacDivisibility
  else if cfg.pac = 0 then .error .zeroPac
  else if cfg.epochs = 0 then .error .zeroEpochs
  else if cfg.batchSize = 0 then .error .zeroBatch
  else .ok ()

/-- One executed update step of the loop. -/
inductive Step where
  | critic
  | gen
deriving DecidableEq

/-- Outcome of a training run: completed, or aborted on a non-finite
loss (`NonFiniteLossError`) carrying the last committed parameters. -/
inductive TrainOutcome (P : Type) where
  | ok (final : P)
  | nonFiniteLossError (committed : P)

variable {P : Type}

/-- The loss stream: one value per update step, `none` standing for a
non-finite (NaN/Inf) loss.  Modelled from the spec: network numerics are
abstracted, so losses are an input of the model. -/
def lossAt (losses : ℕ → Option ℚ) (n : ℕ) : ℚ := (losses n).getD 0

/-- Modelled from the spec: `j` consecutive critic updates; each consumes
one loss value, aborting at the first non-finite one.  Returns the
updated parameters with the next loss index, and the executed steps. -/
def runCritics (updC : P → ℚ → P) (losses : ℕ → Option ℚ) :
    ℕ → P → ℕ → Except Unit (P × ℕ) × List Step
  | 0, par, idx => (.ok (par, idx), [])
  | j + 1, par, idx =>
    match losses idx with
    | none => (.error (), [])
    | some l =>
      let r := runCritics updC losses j (updC par l) (idx + 1)
      (r.1, Step.critic :: r.2)

/-- Modelled from the spec: one outer iteration — `k` critic updates
followed by 1 generator update. -/
def runOuter (updC updG : P → ℚ → P) (losses : ℕ → Option ℚ) (k : ℕ) (par : P) (idx : ℕ) :
    Except Unit (P × ℕ) × List Step :=
  match runCritics updC losses k par idx with
  | (.error e, tr) => (.error e, tr)
  | (.ok (par', idx'), tr) =>
    match losses idx' with
    | none => (.error (), tr)
    | some l => (.ok (updG par' l, idx' + 1), tr ++ [Step.gen])

/-- `n` consecutive outer iterations. -/
def runIters (updC updG : P → ℚ → P) (losses : ℕ → Option ℚ) (k : ℕ) :
    ℕ → P → ℕ → Except Unit (P × ℕ) × List Step
  | 0, par, idx => (.ok (par, idx), [])
  | n + 1, par, idx =>
    match runOuter updC updG losses k par idx with
    | (.error e, tr) => (.error e, tr)
    | (.ok (par', idx'), tr) =>
      let r := runIters updC updG losses k n par' idx'
      (r.1, tr ++ r.2)

/-- Modelled from the spec: the epoch loop.  Each epoch runs `ipe`
(= `num_rows / batch_size`) outer iterations; parameters are committed
at epoch boundaries, so an abort inside an epoch leaves the parameters
of the end of the previous epoch. -/
def runEpochs (updC updG : P → ℚ → P) (losses : ℕ → Option ℚ) (k ipe : ℕ) :
    ℕ → P → ℕ → TrainOutcome P × List Step
  | 0, par, _ => (.ok par, [])
  | e + 1, par, idx =>
    match runIters updC updG losses k ipe par idx with
    | (.error _, tr) => (.nonFiniteLossError par, tr)
    | (.ok (par', idx'), tr) =>
      let r := runEpochs updC updG losses k ipe e par' idx'
      (r.1, tr ++ r.2)

/-- Modelled from the spec: the whole Training Loop — validate the
configuration (before any step), then run
`epochs × (num_rows / batch_size)` outer iterations grouped into
epochs.  Returns the outcome and the executed step trace. -/
def runTraining (cfg : TrainConfig) (numRows : ℕ) (updC updG : P → ℚ → P)
    (losses : ℕ → Option ℚ) (init : P) : Except ConfigError (TrainOutcome P) × List Step :=
  match validateConfig cfg with
  | .error e => (.error e, [])
  | .ok _ =>
    let r := runEpochs updC updG losses cfg.criticSteps (numRows / cfg.batchSize) cfg.epochs init 0
    (.ok r.1, r.2)

/-- The pure parameter evolution of `j` critic updates (used to state
what a completed prefix of training computes). -/
def pureCritics (updC : P → ℚ → P) (losses : ℕ → Option ℚ) : ℕ → P → ℕ → P × ℕ
  | 0, par, idx => (par, idx)
  | j + 1, par, idx => pureCritics updC losses j (updC par (lossAt losses idx)) (idx + 1)

/-- The pure parameter evolution of one outer iteration. -/
def pureOuter (updC updG : P → ℚ → P) (losses : ℕ → Option ℚ) (k : ℕ) (par : P) (idx : ℕ) :
    P × ℕ :=
  let r := pureCritics updC losses k par idx
  (updG r.1 (lossAt losses r.2), r.2 + 1)

/-- The pure parameter evolution of `n` outer iterations. -/
def pureIters (updC updG : P → ℚ → P) (losses : ℕ → Option ℚ) (k : ℕ) : ℕ → P → ℕ → P × ℕ
  | 0, par, idx => (par, idx)
  | n + 1, par, idx =>
    let r := pureOuter updC updG losses k par idx
    pureIters updC updG losses k n r.1 r.2

/-- The pure parameter evolution of `e` whole epochs. -/
def pureEpochs (updC updG : P → ℚ → P) (losses : ℕ → Option ℚ) (k ipe : ℕ) : ℕ → P → ℕ → P × ℕ
  | 0, par, idx => (par, idx)
  | e + 1, par, idx =>
    let r := pureIters updC updG losses k ipe par idx
    pureEpochs updC updG losses k ipe e r.1 r.2

/-! ## Definitions: inference sampler, column fitting, seeded pipeline -/

/-- An output table: column header plus rows. -/
structure Table where
  header : List String
  rows : List (List Val)
deriving DecidableEq

/-- Modelled from the spec: `sample(n)` repeatedly draws noise, invokes
the Generator in evaluation mode (abstracted as the transformed-row
source `g`), decodes each transformed row via the Table Transformer, and
accumulates rows until `n` are produced; the output carries the schema's
column names in schema order. -/
def sample (g : ℕ → List ℚ) (schema : List ColSpec) (n : ℕ) : Table :=
  ⟨schema.map (fun c => c.colName), (List.range n).map (fun j => decodeRow schema (g j))⟩

/-- The decoded cell has the type its column declares (continuous cell
for a continuous column; in-range category for a discrete column; for a
datetime column, a rendered value that round-trips through the declared
`datetime_format`). -/
def CellTypeOK : ColKind → Val → Prop
  | .continuous _, .cont _ => True
  | .discrete numCats, .cat i => i < numCats
  | .datetime _ fmt, .dt ds => formatDT fmt (parseDT fmt ds) = ds
  | _, _ => False

/-- Pointwise `CellTypeOK` of a row against the schema (same length,
schema order). -/
def RowSchemaOK : List ColSpec → List Val → Prop
  | [], [] => True
  | c :: cs, v :: vs => CellTypeOK c.kind v ∧ RowSchemaOK cs vs
  | _, _ => False

/-- Error raised by `fit_continuous` on a degenerate column. -/
inductive DegenerateColumnError where
  | degenerate
deriving DecidableEq

/-- The finite (non-missing) values of a column. -/
def finiteVals (values : List (Option ℚ)) : List ℚ := values.filterMap id

/-- The number of distinct finite values of a column. -/
def distinctFiniteCount (values : List (Option ℚ)) : ℕ := (finiteVals values).dedup.length

/-- Modelled from the spec: `fit_continuous(values)` fits a bounded
Gaussian-mixture density to the column, ignoring missing values;
the variational fitting procedure is absent from the repository, so the
fit is modelled as a single valid Mode spanning the first two distinct
finite values.  Fails with `DegenerateColumnError` — returning no fit
state — when the column has fewer than 2 distinct finite values. -/
def fit_continuous (values : List (Option ℚ)) : Except DegenerateColumnError (List Mode) :=
  let d := (finiteVals values).dedup
  if d.length < 2 then .error .degenerate
  else .ok [⟨1, (d.getD 0 0 + d.getD 1 0) / 2, |d.getD 1 0 - d.getD 0 0| / 8⟩]

/-- Modelled from the spec: the injected seed-controllable random source
(a linear congruential step); all randomness of the pipeline is drawn
from it. -/
def lcgNext (s : ℕ) : ℕ := (1103515245 * s + 12345) % 2147483648

/-- The `n`-th draw of the random source started at `seed`. -/
def randAt (seed n : ℕ) : ℕ := Nat.iterate lcgNext (n + 1) seed

/-- Modelled from the spec: the training losses of the seeded run — the
network numerics are abstracted, so the model derives each (finite) loss
from the injected random source. -/
def lossStream (seed : ℕ) : ℕ → Option ℚ :=
  fun n => some ((randAt seed n : ℚ) / 2147483648)

/-- Modelled from the spec: the generator's transformed-row output for
the `j`-th sample — the trained parameter combined with noise drawn from
the injected random source. -/
def genRow (trained : ℚ) (seed width j : ℕ) : List ℚ :=
  (List.range width).map (fun w => trained + (randAt seed (j * width + w + 1000000) : ℚ) / 2147483648)

/-- Modelled from the spec: fit each (continuous) column of the raw table
in schema order, failing on the first degenerate column. -/
def fitSchema : List (String × List (Option ℚ)) → Except DegenerateColumnError (List ColSpec)
  | [] => .ok []
  | (nm, vs) :: rest =>
    match fit_continuous vs, fitSchema rest with
    | .ok ms, .ok cs => .ok (⟨nm, .continuous ms⟩ :: cs)
    | .error e, _ => .error e
    | .ok _, .error e => .error e

/-- Modelled from the spec: the whole fit-then-sample pipeline with every
random draw (training losses stand-in, noise vectors) taken from the
injected seed-controlled source; the model has no ambient randomness.
Returns the trained parameter state and the synthetic table, or `none`
on any fit/configuration/training error. -/
def fitAndSample (cols : List (String × List (Option ℚ))) (cfg : TrainConfig)
    (numRows nSamples seed : ℕ) : Option (ℚ × Table) :=
  match fitSchema cols with
  | .error _ => none
  | .ok schema =>
    match (runTraining cfg numRows (fun par l => par + l) (fun par l => par - l / 2)
        (lossStream seed) (0 : ℚ)).1 with
    | .error _ => none
    | .ok (.nonFiniteLossError _) => none
    | .ok (.ok trained) =>
      some (trained, sample (genRow trained seed (rowWidth schema)) schema nSamples)

/-! ## Theorems: selection, one-hot and quantization -/

theorem selectMode_nil : selectMode [] = 0 := rfl

theorem selectMode_singleton (x : ℚ) : selectMode [x] = 0 := rfl

theorem selectMode_cons_cons (x y : ℚ) (ys : List ℚ) :
    selectMode (x :: y :: ys) =
      if x < (y :: ys).getD (selectMode (y :: ys)) 0 then selectMode (y :: ys) + 1 else 0 :=
  rfl

/-- The selected index is in range for a nonempty score list. -/
theorem selectMode_lt_length (l : List ℚ) (h : l ≠ []) : selectMode l < l.length := by
  induction l with
  | nil => exact absurd rfl h
  | cons x xs ih =>
    cases xs with
    | nil => simp [selectMode]
    | cons y ys =>
      rw [selectMode_cons_cons]
      split
      · simpa using Nat.succ_lt_succ (ih (by simp))
      · simp

/-- The selected score is maximal among all scores. -/
theorem selectMode_is_max (l : List ℚ) :
    ∀ j, j < l.length → l.getD j 0 ≤ l.getD (selectMode l) 0 := by
  induction l with
  | nil => intro j hj; simp at hj
  | cons x xs ih =>
    cases xs with
    | nil =>
      intro j hj
      have hj0 : j = 0 := by simpa using Nat.lt_one_iff.mp (by simpa using hj)
      subst hj0
      simp [selectMode]
    | cons y ys =>
      intro j hj
      rw [selectMode_cons_cons]
      split
      · rename_i hlt
        cases j with
        | zero => simpa using le_of_lt hlt
        | succ j' =>
          simp only [List.getD_cons_succ]
          exact ih j' (by simpa using Nat.lt_of_succ_lt_succ hj)
      · rename_i hge
        cases j with
        | zero => simp
        | succ j' =>
          simp only [List.getD_cons_succ, List.getD_cons_zero]
          exact le_trans (ih j' (by simpa using Nat.lt_of_succ_lt_succ hj)) (not_lt.mp hge)

/-- Every index strictly before the selected one carries a strictly
smaller score: ties are broken by the lowest index. -/
theorem selectMode_first (l : List ℚ) :
    ∀ j, j < selectMode l → l.getD j 0 < l.getD (selectMode l) 0 := by
  induction l with
  | nil => intro j hj; simp [selectMode] at hj
  | cons x xs ih =>
    cases xs with
    | nil => intro j hj; simp [selectMode] at hj
    | cons y ys =>
      intro j hj
      rw [selectMode_cons_cons] at hj ⊢
      by_cases hlt : x < (y :: ys).getD (selectMode (y :: ys)) 0
      · rw [if_pos hlt] at hj ⊢
        cases j with
        | zero => simpa using hlt
        | succ j' =>
          simp only [List.getD_cons_succ]
          exact ih j' (Nat.lt_of_succ_lt_succ hj)
      · rw [if_neg hlt] at hj
        omega

theorem length_oneHot (k i : ℕ) : (oneHot k i).length = k := by
  induction k generalizing i with
  | zero => rfl
  | succ k ih =>
    cases i with
    | zero => simp [oneHot, ih]
    | succ i' => simp [oneHot, ih]

theorem getD_oneHot (k i j : ℕ) :
    (oneHot k i).getD j 0 = if j = i ∧ j < k then 1 else 0 := by
  induction k generalizing i j with
  | zero => simp [oneHot]
  | succ k ih =>
    cases i with
    | zero =>
      cases j with
      | zero => simp [oneHot]
      | succ j' =>
        simp only [oneHot, List.getD_cons_succ, ih]
        have h2 : ¬ (j' + 1 = 0 ∧ j' + 1 < k + 1) := by omega
        rw [if_neg h2, if_neg (by omega : ¬ (j' = k + 1 ∧ j' < k))]
    | succ i' =>
      cases j with
      | zero => simp [oneHot]
      | succ j' =>
        simp only [oneHot, List.getD_cons_succ, ih]
        by_cases h : j' = i' ∧ j' < k
        · rw [if_pos h, if_pos (by omega)]
        · rw [if_neg h, if_neg (by omega)]

/-- Decoding a genuine one-hot block by arg-max recovers the hot index. -/
theorem selectMode_oneHot (k i : ℕ) (h : i < k) : selectMode (oneHot k i) = i := by
  have hne : oneHot k i ≠ [] := by
    intro habs
    have := length_oneHot k i
    rw [habs] at this
    simp at this
    omega
  have hs := selectMode_lt_length (oneHot k i) hne
  rw [length_oneHot] at hs
  have hmax := selectMode_is_max (oneHot k i) i (by rw [length_oneHot]; exact h)
  rw [getD_oneHot, if_pos ⟨rfl, h⟩, getD_oneHot] at hmax
  by_contra hne2
  rw [if_neg (by exact fun hc => hne2 hc.1)] at hmax
  exact absurd hmax (by norm_num)

theorem clip_eq_of_abs_le (x : ℚ) (h : |x| ≤ 1) : clip x = x := by
  rw [abs_le] at h
  unfold clip
  rw [min_eq_right h.2, max_eq_right h.1]

theorem abs_quantize_sub (p : ℕ) (x : ℚ) : |quantize p x - x| ≤ 1 / 2 ^ (p + 1) := by
  unfold quantize
  have h2 : (0 : ℚ) < 2 ^ p := by positivity
  have hr : |(round (x * 2 ^ p) : ℚ) - x * 2 ^ p| ≤ 1 / 2 := by
    have := abs_sub_round (x * 2 ^ p)
    calc |(round (x * 2 ^ p) : ℚ) - x * 2 ^ p| = |x * 2 ^ p - (round (x * 2 ^ p) : ℚ)| :=
          abs_sub_comm _ _
      _ ≤ 1 / 2 := this
  have key : (round (x * 2 ^ p) : ℚ) / 2 ^ p - x = ((round (x * 2 ^ p) : ℚ) - x * 2 ^ p) / 2 ^ p := by
    field_simp
    ring
  rw [key, abs_div, abs_of_pos h2, div_le_div_iff₀ h2 (by positivity)]
  calc |(round (x * 2 ^ p) : ℚ) - x * 2 ^ p| * 2 ^ (p + 1)
      ≤ (1 / 2) * 2 ^ (p + 1) := by
        exact mul_le_mul_of_nonneg_right hr (by positivity)
    _ = 1 * 2 ^ p := by ring

theorem parseDT_formatDT (fmt t : ℕ) : parseDT fmt (formatDT fmt t) = t :=
  Nat.ofDigits_digits fmt t

/-! ## Theorems: cell, row and table round-trip -/

theorem length_encodeCell (p : ℕ) (post : PosteriorFn) (k : ColKind) (v : Val) :
    (encodeCell p post k v).length = k.width := by
  cases k with
  | continuous modes =>
    cases v with
    | cont x =>
      simp only [encodeCell, encode_continuous, List.length_cons, length_oneHot, ColKind.width]
      omega
    | cat i => simp [encodeCell]
    | dt ds => simp [encodeCell]
  | discrete numCats =>
    cases v with
    | cont x => simp [encodeCell]
    | cat i => simp [encodeCell, encode_discrete, length_oneHot, ColKind.width]
    | dt ds => simp [encodeCell]
  | datetime modes fmt =>
    cases v with
    | cont x => simp [encodeCell]
    | cat i => simp [encodeCell]
    | dt ds =>
      simp only [encodeCell, encode_continuous, List.length_cons, length_oneHot, ColKind.width]
      omega

/-- Reconstruction error of one quantized normalized scalar. -/
theorem reconstruct_abs_le (p : ℕ) (mu sigma x : ℚ) (hs : 0 < sigma) :
    |mu + quantize p ((x - mu) / (4 * sigma)) * (4 * sigma) - x| ≤ 4 * sigma / 2 ^ p := by
  have h4 : (0 : ℚ) < 4 * sigma := by positivity
  have hqd := abs_quantize_sub p ((x - mu) / (4 * sigma))
  have hkey : mu + quantize p ((x - mu) / (4 * sigma)) * (4 * sigma) - x
      = (quantize p ((x - mu) / (4 * sigma)) - (x - mu) / (4 * sigma)) * (4 * sigma) := by
    rw [sub_mul, div_mul_cancel₀ _ (ne_of_gt h4)]
    ring
  rw [hkey, abs_mul, abs_of_pos h4]
  calc |quantize p ((x - mu) / (4 * sigma)) - (x - mu) / (4 * sigma)| * (4 * sigma)
      ≤ (1 / 2 ^ (p + 1)) * (4 * sigma) := mul_le_mul_of_nonneg_right hqd (le_of_lt h4)
    _ = 2 * sigma / 2 ^ p := by
        rw [pow_succ]
        field_simp
        ring
    _ ≤ 4 * sigma / 2 ^ p := by
        gcongr
        linarith

/-- Round-trip of a single well-typed, in-range cell. -/
theorem cellClose_decodeCell_encodeCell (p : ℕ) (post : PosteriorFn) (k : ColKind) (v : Val)
    (hpost : PosteriorOK post) (hvalid : k.Valid) (hnd : k.DatetimeFree)
    (hm : CellMatches k v) (hr : CellInRange post k v) :
    CellClose p post k v (decodeCell k (encodeCell p post k v)) := by
  cases k with
  | continuous modes =>
    cases v with
    | cont x =>
      obtain ⟨hne, hstd⟩ := hvalid
      have hslen : (post x modes).length = modes.length := hpost x modes
      have hmlen : 0 < modes.length := List.length_pos.mpr hne
      have hsne : post x modes ≠ [] := by
        intro h
        rw [h] at hslen
        simp at hslen
        omega
      have hi : selectMode (post x modes) < modes.length := by
        have := selectMode_lt_length _ hsne
        omega
      have hmem : modes.getD (selectMode (post x modes)) defaultMode ∈ modes := by
        rw [List.getD_eq_getElem _ _ hi]
        exact List.getElem_mem hi
      have hstdm : 0 < (modes.getD (selectMode (post x modes)) defaultMode).std :=
        hstd _ hmem
      have hrange : |x - (modes.getD (selectMode (post x modes)) defaultMode).mean|
          ≤ 4 * (modes.getD (selectMode (post x modes)) defaultMode).std := hr
      have h4 : (0 : ℚ) < 4 * (modes.getD (selectMode (post x modes)) defaultMode).std := by
        positivity
      have hraw : |(x - (modes.getD (selectMode (post x modes)) defaultMode).mean) /
          (4 * (modes.getD (selectMode (post x modes)) defaultMode).std)| ≤ 1 := by
        rw [abs_div, abs_of_pos h4, div_le_one h4]
        exact hrange
      have hED : decodeCell (.continuous modes) (encodeCell p post (.continuous modes) (.cont x))
          = .cont ((modes.getD (selectMode (post x modes)) defaultMode).mean
              + quantize p ((x - (modes.getD (selectMode (post x modes)) defaultMode).mean) /
                  (4 * (modes.getD (selectMode (post x modes)) defaultMode).std))
                * (4 * (modes.getD (selectMode (post x modes)) defaultMode).std)) := by
        simp only [encodeCell, encode_continuous, decodeCell, decode_continuous,
          List.headD_cons, List.tail_cons]
        rw [selectMode_oneHot _ _ hi, clip_eq_of_abs_le _ hraw]
      rw [hED]
      exact reconstruct_abs_le p _ _ x hstdm
    | cat i => exact hm.elim
    | dt ds => exact hm.elim
  | discrete numCats =>
    cases v with
    | cont x => exact hm.elim
    | cat i =>
      have hi : i < numCats := hm
      have hED : decodeCell (.discrete numCats) (encodeCell p post (.discrete numCats) (.cat i))
          = .cat i := by
        simp only [decodeCell, encodeCell, encode_discrete, decode_discrete]
        rw [selectMode_oneHot _ _ hi]
      rw [hED]
      exact rfl
    | dt ds => exact hm.elim
  | datetime modes fmt => exact hnd.elim

/-- Round-trip of a whole well-typed, in-range row. -/
theorem rowClose_roundtrip (p : ℕ) (post : PosteriorFn) (hpost : PosteriorOK post) :
    ∀ (schema : List ColSpec) (row : List Val),
      SchemaValid schema → SchemaDatetimeFree schema →
      RowTyped schema row → RowInRange post schema row →
      RowClose p post schema row (decodeRow schema (encodeRow p post schema row)) := by
  intro schema
  induction schema with
  | nil =>
    intro row hv hd ht hr
    cases row with
    | nil => exact ⟨⟩
    | cons v vs => exact ht.elim
  | cons c cs ih =>
    intro row hv hd ht hr
    cases row with
    | nil => exact ht.elim
    | cons v vs =>
      obtain ⟨ht1, ht2⟩ := ht
      obtain ⟨hr1, hr2⟩ := hr
      have hv1 : c.kind.Valid := hv c (List.mem_cons_self c cs)
      have hv2 : SchemaValid cs := fun c' hc' => hv c' (List.mem_cons_of_mem c hc')
      have hd1 : c.kind.DatetimeFree := hd c (List.mem_cons_self c cs)
      have hd2 : SchemaDatetimeFree cs := fun c' hc' => hd c' (List.mem_cons_of_mem c hc')
      show RowClose p post (c :: cs) (v :: vs)
        (decodeRow (c :: cs) (encodeCell p post c.kind v ++ encodeRow p post cs vs))
      have htake : (encodeCell p post c.kind v ++ encodeRow p post cs vs).take c.kind.width
          = encodeCell p post c.kind v := List.take_left' (length_encodeCell p post c.kind v)
      have hdrop : (encodeCell p post c.kind v ++ encodeRow p post cs vs).drop c.kind.width
          = encodeRow p post cs vs := List.drop_left' (length_encodeCell p post c.kind v)
      simp only [decodeRow, htake, hdrop]
      exact ⟨cellClose_decodeCell_encodeCell p post c.kind v hpost hv1 hd1 ht1 hr1,
        ih vs hv2 hd2 ht2 hr2⟩

/-- C1 (amended): for every precision, posterior assignment, fitted
datetime-free valid schema and well-typed table without missing values
whose continuous values lie within the normalization range
`[mean - 4*std, mean + 4*std]` of their assigned mode,
`decode(encode(table))` reproduces the table within normalization
precision: every discrete value exactly, every continuous value with
absolute error at most `4 * std_of_assigned_mode * 2^-(precision)`. -/
theorem claim1_roundtrip (p : ℕ) (post : PosteriorFn) (schema : List ColSpec)
    (rows : List (List Val)) (hpost : PosteriorOK post)
    (hv : SchemaValid schema) (hd : SchemaDatetimeFree schema)
    (ht : ∀ r ∈ rows, RowTyped schema r) (hr : ∀ r ∈ rows, RowInRange post schema r) :
    TableClose p post schema rows (decodeTable schema (encodeTable p post schema rows)) := by
  induction rows with
  | nil => exact ⟨⟩
  | cons r rs ih =>
    exact ⟨rowClose_roundtrip p post hpost schema r hv hd
        (ht r (List.mem_cons_self r rs)) (hr r (List.mem_cons_self r rs)),
      ih (fun x hx => ht x (List.mem_cons_of_mem r hx))
        (fun x hx => hr x (List.mem_cons_of_mem r hx))⟩

/-- C1 counterexample: the round-trip bound does not hold for *every*
table without missing values.  A valid single-mode column (`mean 0`,
`std 1`) and the value `100` (outside the assigned mode's normalization
range) decode to `4`: the error `96` exceeds
`4 * std * 2^-(precision) = 4` at precision `0`. -/
theorem claim1_counterexample :
    SchemaValid [⟨"x", .continuous [⟨1, 0, 1⟩]⟩] ∧
    RowTyped [⟨"x", .continuous [⟨1, 0, 1⟩]⟩] [Val.cont 100] ∧
    decodeTable [⟨"x", .continuous [⟨1, 0, 1⟩]⟩]
        (encodeTable 0 priors [⟨"x", .continuous [⟨1, 0, 1⟩]⟩] [[Val.cont 100]])
      = [[Val.cont 4]] ∧
    ¬ TableClose 0 priors [⟨"x", .continuous [⟨1, 0, 1⟩]⟩] [[Val.cont 100]]
        (decodeTable [⟨"x", .continuous [⟨1, 0, 1⟩]⟩]
          (encodeTable 0 priors [⟨"x", .continuous [⟨1, 0, 1⟩]⟩] [[Val.cont 100]])) := by
  refine ⟨by decide, by decide, by with_unfolding_all decide, by with_unfolding_all decide⟩

/-- C1 witness: the amended round-trip theorem applied to a concrete
two-column table. -/
theorem claim1_witness :
    TableClose 4 priors [⟨"amount", .continuous [⟨1, 0, 1⟩]⟩, ⟨"tier", .discrete 3⟩]
      [[Val.cont 2, Val.cat 1], [Val.cont (-3), Val.cat 0]]
      (decodeTable [⟨"amount", .continuous [⟨1, 0, 1⟩]⟩, ⟨"tier", .discrete 3⟩]
        (encodeTable 4 priors [⟨"amount", .continuous [⟨1, 0, 1⟩]⟩, ⟨"tier", .discrete 3⟩]
          [[Val.cont 2, Val.cat 1], [Val.cont (-3), Val.cat 0]])) :=
  claim1_roundtrip 4 priors _ _
    (fun _ modes => by simp [priors])
    (by decide) (by decide) (by decide) (by with_unfolding_all decide)

/-- C2: for every value and fitted Mode set (with posterior scores over
exactly those modes), `encode_continuous` is deterministic: it selects
the mode with the highest posterior score, ties broken by the lowest
mode index, and returns the pair
`(clip((value - mean)/(4*std), -1, 1), one_hot(selected_mode))` with the
selected mode's parameters. -/
theorem claim2_encode_continuous (scores : List ℚ) (v : ℚ) (modes : List Mode)
    (hlen : scores.length = modes.length) (hne : modes ≠ []) :
    IsArgmaxLowest scores (selectMode scores) ∧
    selectMode scores < modes.length ∧
    encode_continuous scores v modes =
      (clip ((v - (modes.getD (selectMode scores) defaultMode).mean) /
          (4 * (modes.getD (selectMode scores) defaultMode).std)),
        oneHot modes.length (selectMode scores)) := by
  have hsne : scores ≠ [] := by
    intro h
    rw [h] at hlen
    simp at hlen
    exact hne (List.length_eq_zero.mp hlen.symm)
  exact ⟨⟨selectMode_lt_length scores hsne, selectMode_is_max scores,
      fun j hj => selectMode_first scores j hj⟩,
    hlen ▸ selectMode_lt_length scores hsne, rfl⟩

/-- C2 witness: the encoding theorem applied to concrete scores (with a
tie between indices 1 and 2, resolved to 1) and three concrete modes. -/
theorem claim2_witness :
    IsArgmaxLowest [(1 : ℚ)/2, 2/3, 2/3] (selectMode [(1 : ℚ)/2, 2/3, 2/3]) ∧
    selectMode [(1 : ℚ)/2, 2/3, 2/3] < ([⟨1, 0, 1⟩, ⟨1, 5, 2⟩, ⟨1, 9, 3⟩] : List Mode).length ∧
    encode_continuous [(1 : ℚ)/2, 2/3, 2/3] 7 [⟨1, 0, 1⟩, ⟨1, 5, 2⟩, ⟨1, 9, 3⟩] =
      (clip ((7 - (([⟨1, 0, 1⟩, ⟨1, 5, 2⟩, ⟨1, 9, 3⟩] : List Mode).getD
            (selectMode [(1 : ℚ)/2, 2/3, 2/3]) defaultMode).mean) /
          (4 * (([⟨1, 0, 1⟩, ⟨1, 5, 2⟩, ⟨1, 9, 3⟩] : List Mode).getD
            (selectMode [(1 : ℚ)/2, 2/3, 2/3]) defaultMode).std)),
        oneHot ([⟨1, 0, 1⟩, ⟨1, 5, 2⟩, ⟨1, 9, 3⟩] : List Mode).length
          (selectMode [(1 : ℚ)/2, 2/3, 2/3])) :=
  claim2_encode_continuous [(1 : ℚ)/2, 2/3, 2/3] 7 [⟨1, 0, 1⟩, ⟨1, 5, 2⟩, ⟨1, 9, 3⟩]
    (by decide) (by decide)

/-! ## Theorems: conditional sampler -/

/-- A category's selection weight is positive exactly when its real-data
frequency is: the `CategoryFrequencyTable` invariant. -/
theorem selWeight_pos_iff (f : ℕ) : 0 < selWeight f ↔ 0 < f := by
  unfold selWeight
  rw [Real.log_pos_iff (by positivity)]
  constructor
  · intro h
    by_contra hf
    push_neg at hf
    interval_cases f
    simp at h
  · intro h
    have : (1 : ℝ) ≤ (f : ℝ) := by exact_mod_cast h
    linarith

theorem selWeight_nonneg (f : ℕ) : 0 ≤ selWeight f := by
  unfold selWeight
  apply Real.log_nonneg
  have : (0 : ℝ) ≤ (f : ℝ) := Nat.cast_nonneg f
  linarith

theorem getD_columnFreqs (rows : List (List ℕ)) (col numCats c : ℕ) (hc : c < numCats) :
    (columnFreqs rows col numCats).getD c 0 = freq rows col c := by
  unfold columnFreqs
  rw [List.getD_eq_getElem _ _ (by simpa using hc)]
  simp

/-- C3: in `build_batch`, once a discrete column is chosen, its category
is selected with probability proportional to `log(1 + frequency)` of the
real-data occurrence count, never to the raw frequency: for categories
`c1` with count 1000 and `c2` with count 10 in the same column, the
ratio of selection probabilities equals `log(1+1000)/log(1+10)`, not
`1000/10`. -/
theorem claim3_log_frequency_bias (rows : List (List ℕ)) (col numCats c1 c2 : ℕ)
    (hc1 : c1 < numCats) (hc2 : c2 < numCats)
    (hf1 : freq rows col c1 = 1000) (hf2 : freq rows col c2 = 10) :
    selProb (columnFreqs rows col numCats) c1 / selProb (columnFreqs rows col numCats) c2
      = Real.log (1 + 1000) / Real.log (1 + 10) ∧
    selProb (columnFreqs rows col numCats) c1 / selProb (columnFreqs rows col numCats) c2
      ≠ 1000 / 10 := by
  have hw1 : selWeight 1000 = Real.log (1 + 1000) := by unfold selWeight; norm_num
  have hw2 : selWeight 10 = Real.log (1 + 10) := by unfold selWeight; norm_num
  have hlog11 : (0 : ℝ) < Real.log (1 + 10) := by
    apply Real.log_pos
    norm_num
  have hmem : selWeight 10 ∈ (columnFreqs rows col numCats).map selWeight := by
    apply List.mem_map_of_mem
    have h1 : (columnFreqs rows col numCats).getD c2 0 ∈ columnFreqs rows col numCats := by
      rw [List.getD_eq_getElem _ _ (by simpa [columnFreqs] using hc2)]
      exact List.getElem_mem _
    rw [getD_columnFreqs rows col numCats c2 hc2, hf2] at h1
    exact h1
  have hsum : (0 : ℝ) < (((columnFreqs rows col numCats).map selWeight).sum) := by
    have hnn : ∀ x ∈ (columnFreqs rows col numCats).map selWeight, 0 ≤ x := by
      intro x hx
      obtain ⟨f, _, rfl⟩ := List.mem_map.mp hx
      exact selWeight_nonneg f
    calc (0 : ℝ) < selWeight 10 := by rw [hw2]; exact hlog11
      _ ≤ _ := List.single_le_sum hnn _ hmem
  have hratio : selProb (columnFreqs rows col numCats) c1 /
      selProb (columnFreqs rows col numCats) c2 = Real.log (1 + 1000) / Real.log (1 + 10) := by
    unfold selProb
    rw [getD_columnFreqs rows col numCats c1 hc1, getD_columnFreqs rows col numCats c2 hc2,
      hf1, hf2, hw1, hw2]
    rw [div_div_div_comm]
    rw [div_self (ne_of_gt hsum), div_one]
  refine ⟨hratio, ?_⟩
  rw [hratio]
  intro habs
  have h100 : Real.log (1 + 1000) = 100 * Real.log (1 + 10) := by
    have : Real.log (1 + 1000) / Real.log (1 + 10) = 100 := by rw [habs]; norm_num
    field_simp at this
    linarith [this]
  have hlt : Real.log (1 + 1000) < 100 * Real.log (1 + 10) := by
    have h1 : Real.log (1 + 1000) < Real.log ((1 + 10) ^ 100) := by
      apply Real.log_lt_log (by norm_num)
      calc (1 + 1000 : ℝ) < (1 + 10) ^ 3 := by norm_num
        _ ≤ (1 + 10) ^ 100 := by
          apply pow_le_pow_right₀ (by norm_num)
          norm_num
    rw [Real.log_pow] at h1
    calc Real.log (1 + 1000) < (100 : ℕ) * Real.log (1 + 10) := h1
      _ = 100 * Real.log (1 + 10) := by norm_num
  linarith

/-- C3 witness: the frequency-bias theorem applied to a concrete dataset
of 1010 rows with a single discrete column whose category 0 occurs 1000
times and category 1 occurs 10 times. -/
theorem claim3_witness :
    freq (List.replicate 1000 [0] ++ List.replicate 10 [1]) 0 0 = 1000 ∧
    freq (List.replicate 1000 [0] ++ List.replicate 10 [1]) 0 1 = 10 ∧
    (selProb (columnFreqs (List.replicate 1000 [0] ++ List.replicate 10 [1]) 0 2) 0 /
        selProb (columnFreqs (List.replicate 1000 [0] ++ List.replicate 10 [1]) 0 2) 1
      = Real.log (1 + 1000) / Real.log (1 + 10) ∧
    selProb (columnFreqs (List.replicate 1000 [0] ++ List.replicate 10 [1]) 0 2) 0 /
        selProb (columnFreqs (List.replicate 1000 [0] ++ List.replicate 10 [1]) 0 2) 1
      ≠ 1000 / 10) :=
  ⟨by
    unfold freq matchingRows
    rw [List.filter_append, List.filter_replicate, List.filter_replicate]
    norm_num,
  by
    unfold freq matchingRows
    rw [List.filter_append, List.filter_replicate, List.filter_replicate]
    norm_num,
  claim3_log_frequency_bias _ 0 2 0 1 (by decide) (by decide)
    (by
      unfold freq matchingRows
      rw [List.filter_append, List.filter_replicate, List.filter_replicate]
      norm_num)
    (by
      unfold freq matchingRows
      rw [List.filter_append, List.filter_replicate, List.filter_replicate]
      norm_num)⟩

/-- C4: under the `CategoryFrequencyTable` invariant (a category has
positive selection weight iff it has positive real-data frequency), and
with every slot's category chosen from the support of the selection
distribution, `build_batch` never raises `EmptyCategoryError` — it
returns a full batch of one row per slot, for every batch size. -/
theorem claim4_no_empty_category (rows : List (List ℕ)) (choices : List (ℕ × ℕ × ℕ))
    (hinv : ∀ col cat, 0 < selWeight (freq rows col cat) ↔ 0 < freq rows col cat)
    (hsupp : ∀ ch ∈ choices, 0 < selWeight (freq rows ch.1 ch.2.1)) :
    Except.map List.length (build_batch rows choices) = .ok choices.length := by
  induction choices with
  | nil => rfl
  | cons ch rest ih =>
    obtain ⟨col, cat, rpick⟩ := ch
    have hfreq : 0 < freq rows col cat :=
      (hinv col cat).mp (hsupp (col, cat, rpick) (List.mem_cons_self _ _))
    have hne : (matchingRows rows col cat).isEmpty = false := by
      have hn : matchingRows rows col cat ≠ [] := by
        intro h
        unfold freq at hfreq
        rw [h] at hfreq
        simp at hfreq
      simpa [List.isEmpty_iff] using hn
    have hr : drawSlot rows (col, cat, rpick)
        = .ok ((matchingRows rows col cat).getD
            (rpick % (matchingRows rows col cat).length) []) := by
      simp [drawSlot, hne]
    have ih' := ih (fun x hx => hsupp x (List.mem_cons_of_mem _ hx))
    cases hbb : build_batch rows rest with
    | error e => rw [hbb] at ih'; simp [Except.map] at ih'
    | ok rs =>
      have hlen : rs.length = rest.length := by
        rw [hbb] at ih'
        simpa [Except.map] using ih'
      show Except.map List.length (build_batch rows ((col, cat, rpick) :: rest))
        = .ok ((col, cat, rpick) :: rest).length
      rw [build_batch, hr, hbb]
      simp [Except.map, hlen]

/-- C4 witness: the no-empty-category theorem applied to a concrete
dataset and a concrete two-slot batch of supported choices. -/
theorem claim4_witness :
    Except.map List.length
      (build_batch [[0], [1], [0]] [(0, 0, 7), (0, 1, 2)]) = .ok 2 :=
  claim4_no_empty_category [[0], [1], [0]] [(0, 0, 7), (0, 1, 2)]
    (fun col cat => selWeight_pos_iff (freq [[0], [1], [0]] col cat))
    (by
      intro ch hch
      simp only [List.mem_cons, List.mem_singleton] at hch
      rcases hch with h | h | h
      · subst h; exact (selWeight_pos_iff _).mpr (by decide)
      · subst h; exact (selWeight_pos_iff _).mpr (by decide)
      · exact absurd h (by simp))

/-! ## Theorems: training loop -/

theorem pureCritics_snd (updC : P → ℚ → P) (losses : ℕ → Option ℚ) :
    ∀ (j : ℕ) (par : P) (idx : ℕ), (pureCritics updC losses j par idx).2 = idx + j := by
  intro j
  induction j with
  | zero => intro par idx; simp [pureCritics]
  | succ j ih =>
    intro par idx
    simp only [pureCritics]
    rw [ih]
    omega

theorem pureOuter_snd (updC updG : P → ℚ → P) (losses : ℕ → Option ℚ) (k : ℕ) (par : P)
    (idx : ℕ) : (pureOuter updC updG losses k par idx).2 = idx + k + 1 := by
  simp [pureOuter, pureCritics_snd]

theorem pureIters_snd (updC updG : P → ℚ → P) (losses : ℕ → Option ℚ) (k : ℕ) :
    ∀ (n : ℕ) (par : P) (idx : ℕ), (pureIters updC updG losses k n par idx).2
      = idx + n * (k + 1) := by
  intro n
  induction n with
  | zero => intro par idx; simp [pureIters]
  | succ n ih =>
    intro par idx
    simp only [pureIters]
    rw [ih, pureOuter_snd]
    ring

theorem runCritics_ok (updC : P → ℚ → P) (losses : ℕ → Option ℚ) :
    ∀ (j : ℕ) (par : P) (idx : ℕ), (∀ m, idx ≤ m → m < idx + j → losses m ≠ none) →
      runCritics updC losses j par idx
        = (.ok (pureCritics updC losses j par idx), List.replicate j Step.critic) := by
  intro j
  induction j with
  | zero => intro par idx _; simp [runCritics, pureCritics]
  | succ j ih =>
    intro par idx hf
    obtain ⟨l, hl⟩ := Option.ne_none_iff_exists'.mp (hf idx (le_refl idx) (by omega))
    have hla : lossAt losses idx = l := by simp [lossAt, hl]
    simp only [runCritics, hl]
    rw [ih (updC par l) (idx + 1) (fun m h1 h2 => hf m (by omega) (by omega))]
    simp only [pureCritics, hla, List.replicate_succ]

theorem runOuter_ok (updC updG : P → ℚ → P) (losses : ℕ → Option ℚ) (k : ℕ) (par : P)
    (idx : ℕ) (hf : ∀ m, idx ≤ m → m < idx + (k + 1) → losses m ≠ none) :
    runOuter updC updG losses k par idx
      = (.ok (pureOuter updC updG losses k par idx),
          List.replicate k Step.critic ++ [Step.gen]) := by
  unfold runOuter
  rw [runCritics_ok updC losses k par idx (fun m h1 h2 => hf m h1 (by omega))]
  have hsnd : (pureCritics updC losses k par idx).2 = idx + k := pureCritics_snd updC losses k par idx
  obtain ⟨l, hl⟩ := Option.ne_none_iff_exists'.mp (hf (idx + k) (by omega) (by omega))
  have hla : lossAt losses (idx + k) = l := by simp [lossAt, hl]
  simp only [hsnd, hl, pureOuter]
  rw [hla]

theorem runIters_ok (updC updG : P → ℚ → P) (losses : ℕ → Option ℚ) (k : ℕ) :
    ∀ (n : ℕ) (par : P) (idx : ℕ), (∀ m, idx ≤ m → m < idx + n * (k + 1) → losses m ≠ none) →
      runIters updC updG losses k n par idx
        = (.ok (pureIters updC updG losses k n par idx),
            List.flatten (List.replicate n (List.replicate k Step.critic ++ [Step.gen]))) := by
  intro n
  induction n with
  | zero => intro par idx _; simp [runIters, pureIters]
  | succ n ih =>
    intro par idx hf
    simp only [runIters]
    rw [runOuter_ok updC updG losses k par idx
      (fun m h1 h2 => hf m h1 (by
        have : (n + 1) * (k + 1) = (k + 1) + n * (k + 1) := by ring
        omega))]
    dsimp only
    rw [ih (pureOuter updC updG losses k par idx).1 (pureOuter updC updG losses k par idx).2
      (by
        rw [pureOuter_snd]
        intro m h1 h2
        apply hf m (by omega)
        have : (n + 1) * (k + 1) = (k + 1) + n * (k + 1) := by ring
        omega)]
    simp only [pureIters, List.replicate_succ, List.flatten_cons]

theorem runEpochs_ok (updC updG : P → ℚ → P) (losses : ℕ → Option ℚ) (k ipe : ℕ) :
    ∀ (e : ℕ) (par : P) (idx : ℕ),
      (∀ m, idx ≤ m → m < idx + e * (ipe * (k + 1)) → losses m ≠ none) →
      runEpochs updC updG losses k ipe e par idx
        = (.ok (pureEpochs updC updG losses k ipe e par idx).1,
            List.flatten (List.replicate e
              (List.flatten (List.replicate ipe (List.replicate k Step.critic ++ [Step.gen]))))) := by
  intro e
  induction e with
  | zero => intro par idx _; simp [runEpochs, pureEpochs]
  | succ e ih =>
    intro par idx hf
    simp only [runEpochs]
    rw [runIters_ok updC updG losses k ipe par idx
      (fun m h1 h2 => hf m h1 (by
        have : (e + 1) * (ipe * (k + 1)) = ipe * (k + 1) + e * (ipe * (k + 1)) := by ring
        omega))]
    dsimp only
    rw [ih (pureIters updC updG losses k ipe par idx).1 (pureIters updC updG losses k ipe par idx).2
      (by
        rw [pureIters_snd]
        intro m h1 h2
        apply hf m (by omega)
        have : (e + 1) * (ipe * (k + 1)) = ipe * (k + 1) + e * (ipe * (k + 1)) := by ring
        omega)]
    simp only [pureEpochs, List.replicate_succ, List.flatten_cons]

theorem join_replicate_mul (a b : ℕ) (x : List Step) :
    List.flatten (List.replicate a (List.flatten (List.replicate b x)))
      = List.flatten (List.replicate (a * b) x) := by
  induction a with
  | zero => simp
  | succ a ih =>
    have hab : (a + 1) * b = b + a * b := by ring
    rw [List.replicate_succ, List.flatten_cons, ih, hab, List.replicate_add, List.flatten_append]

theorem count_join_replicate (n : ℕ) (l : List Step) (s : Step) :
    (List.flatten (List.replicate n l)).count s = n * l.count s := by
  induction n with
  | zero => simp
  | succ n ih =>
    rw [List.replicate_succ, List.flatten_cons, List.count_append, ih]
    ring

theorem runCritics_abort (updC : P → ℚ → P) (losses : ℕ → Option ℚ) (bad : ℕ)
    (hbad : losses bad = none) (hfin : ∀ m, m < bad → losses m ≠ none) :
    ∀ (j : ℕ) (par : P) (idx : ℕ), idx ≤ bad → bad < idx + j →
      (runCritics updC losses j par idx).1 = .error () := by
  intro j
  induction j with
  | zero => intro par idx h1 h2; omega
  | succ j ih =>
    intro par idx h1 h2
    by_cases hi : idx = bad
    · subst hi
      simp [runCritics, hbad]
    · obtain ⟨l, hl⟩ := Option.ne_none_iff_exists'.mp (hfin idx (by omega))
      simp only [runCritics, hl]
      exact ih (updC par l) (idx + 1) (by omega) (by omega)

theorem runOuter_abort (updC updG : P → ℚ → P) (losses : ℕ → Option ℚ) (bad : ℕ)
    (hbad : losses bad = none) (hfin : ∀ m, m < bad → losses m ≠ none) (k : ℕ) (par : P)
    (idx : ℕ) (h1 : idx ≤ bad) (h2 : bad < idx + (k + 1)) :
    (runOuter updC updG losses k par idx).1 = .error () := by
  by_cases hk : bad < idx + k
  · have hc := runCritics_abort updC losses bad hbad hfin k par idx h1 hk
    unfold runOuter
    rcases hr : runCritics updC losses k par idx with ⟨res, tr⟩
    rw [hr] at hc
    simp only at hc
    subst hc
    simp
  · have hb : bad = idx + k := by omega
    unfold runOuter
    rw [runCritics_ok updC losses k par idx (fun m hm1 hm2 => hfin m (by omega))]
    have hsnd : (pureCritics updC losses k par idx).2 = idx + k :=
      pureCritics_snd updC losses k par idx
    simp only [hsnd, ← hb, hbad]

theorem runIters_abort (updC updG : P → ℚ → P) (losses : ℕ → Option ℚ) (bad : ℕ)
    (hbad : losses bad = none) (hfin : ∀ m, m < bad → losses m ≠ none) (k : ℕ) :
    ∀ (n : ℕ) (par : P) (idx : ℕ), idx ≤ bad → bad < idx + n * (k + 1) →
      (runIters updC updG losses k n par idx).1 = .error () := by
  intro n
  induction n with
  | zero => intro par idx h1 h2; omega
  | succ n ih =>
    intro par idx h1 h2
    by_cases ho : bad < idx + (k + 1)
    · have hova := runOuter_abort updC updG losses bad hbad hfin k par idx h1 ho
      simp only [runIters]
      rcases hr : runOuter updC updG losses k par idx with ⟨res, tr⟩
      rw [hr] at hova
      simp only at hova
      subst hova
      simp
    · simp only [runIters]
      rw [runOuter_ok updC updG losses k par idx (fun m hm1 hm2 => hfin m (by omega))]
      have hsnd : (pureOuter updC updG losses k par idx).2 = idx + k + 1 :=
        pureOuter_snd updC updG losses k par idx
      simp only
      rw [ih (pureOuter updC updG losses k par idx).1 (pureOuter updC updG losses k par idx).2
        (by omega) (by
          rw [hsnd]
          have : (n + 1) * (k + 1) = (k + 1) + n * (k + 1) := by ring
          omega)]

theorem runEpochs_abort (updC updG : P → ℚ → P) (losses : ℕ → Option ℚ) (bad : ℕ)
    (hbad : losses bad = none) (hfin : ∀ m, m < bad → losses m ≠ none) (k ipe : ℕ)
    (hipe : 0 < ipe) :
    ∀ (e : ℕ) (par : P) (idx : ℕ), idx ≤ bad → bad < idx + e * (ipe * (k + 1)) →
      (runEpochs updC updG losses k ipe e par idx).1
        = .nonFiniteLossError
            (pureEpochs updC updG losses k ipe ((bad - idx) / (ipe * (k + 1))) par idx).1 := by
  intro e
  induction e with
  | zero => intro par idx h1 h2; omega
  | succ e ih =>
    intro par idx h1 h2
    have hc : 0 < ipe * (k + 1) := by positivity
    by_cases hlt : bad < idx + ipe * (k + 1)
    · have habort := runIters_abort updC updG losses bad hbad hfin k ipe par idx h1 hlt
      have hdiv : (bad - idx) / (ipe * (k + 1)) = 0 := Nat.div_eq_of_lt (by omega)
      simp only [runEpochs]
      rcases hr : runIters updC updG losses k ipe par idx with ⟨res, tr⟩
      rw [hr] at habort
      simp only at habort
      subst habort
      rw [hdiv]
      simp [pureEpochs]
    · simp only [runEpochs]
      rw [runIters_ok updC updG losses k ipe par idx (fun m hm1 hm2 => hfin m (by omega))]
      have hsnd : (pureIters updC updG losses k ipe par idx).2 = idx + ipe * (k + 1) := by
        rw [pureIters_snd]
      simp only
      rw [ih (pureIters updC updG losses k ipe par idx).1
        (pureIters updC updG losses k ipe par idx).2
        (by rw [hsnd]; omega)
        (by
          rw [hsnd]
          have : (e + 1) * (ipe * (k + 1)) = ipe * (k + 1) + e * (ipe * (k + 1)) := by ring
          omega)]
      have hdiv : (bad - idx) / (ipe * (k + 1)) = (bad - (idx + ipe * (k + 1))) / (ipe * (k + 1)) + 1 := by
        rw [Nat.div_eq_sub_div hc (by omega)]
        have hsub : bad - idx - ipe * (k + 1) = bad - (idx + ipe * (k + 1)) := by omega
        rw [hsub]
      rw [hdiv]
      simp only [pureEpochs]
      rw [hsnd]

/-- C5: for every configuration in which `batch_size` is not divisible by
`pac`, constructing/running the Training Loop fails fast with the PacGAN
configuration error and an empty step trace: no critic or generator
update is ever executed with `batch_size % pac ≠ 0`. -/
theorem claim5_pac_divisibility (cfg : TrainConfig) (numRows : ℕ) (updC updG : P → ℚ → P)
    (losses : ℕ → Option ℚ) (init : P) (h : ¬ (cfg.pac ∣ cfg.batchSize)) :
    runTraining cfg numRows updC updG losses init = (.error ConfigError.pacDivisibility, []) := by
  have hmod : cfg.batchSize % cfg.pac ≠ 0 := fun h0 =>
    h (Nat.dvd_iff_mod_eq_zero.mpr h0)
  have hv : validateConfig cfg = .error .pacDivisibility := by
    unfold validateConfig
    rw [if_pos hmod]
  simp [runTraining, hv]

/-- C5 witness: the fail-fast theorem applied to a configuration with
`batch_size = 25` and `pac = 10`. -/
theorem claim5_witness :
    ¬ ((10 : ℕ) ∣ 25) ∧
    runTraining ⟨300, 25, 10, 5⟩ 1000 (fun (par : ℕ) _ => par) (fun par _ => par)
        (fun _ => some 0) 0
      = (.error ConfigError.pacDivisibility, []) :=
  ⟨by decide, claim5_pac_divisibility _ _ _ _ _ _ (by decide)⟩

/-- C6: for every valid configuration and dataset size and every
all-finite loss stream, the Training Loop performs exactly
`epochs × (num_rows / batch_size)` outer iterations — each exactly
`criticSteps` critic updates followed by exactly 1 generator update —
computes the deterministic parameter evolution, and terminates;
the step structure is independent of the loss values (no automatic
early stopping), and the default configuration has `k = 5`. -/
theorem claim6_iteration_structure (cfg : TrainConfig) (numRows : ℕ) (updC updG : P → ℚ → P)
    (losses : ℕ → Option ℚ) (init : P)
    (hval : validateConfig cfg = .ok ())
    (hfin : ∀ n, losses n ≠ none) :
    (runTraining cfg numRows updC updG losses init).1
      = .ok (.ok (pureEpochs updC updG losses cfg.criticSteps (numRows / cfg.batchSize)
          cfg.epochs init 0).1) ∧
    (runTraining cfg numRows updC updG losses init).2
      = List.flatten (List.replicate (cfg.epochs * (numRows / cfg.batchSize))
          (List.replicate cfg.criticSteps Step.critic ++ [Step.gen])) ∧
    ((runTraining cfg numRows updC updG losses init).2).count Step.critic
      = cfg.epochs * (numRows / cfg.batchSize) * cfg.criticSteps ∧
    ((runTraining cfg numRows updC updG losses init).2).count Step.gen
      = cfg.epochs * (numRows / cfg.batchSize) ∧
    (TrainConfig.defaults cfg.batchSize).criticSteps = 5 := by
  have hep := runEpochs_ok updC updG losses cfg.criticSteps (numRows / cfg.batchSize)
    cfg.epochs init 0 (fun m _ _ => hfin m)
  have hrt : runTraining cfg numRows updC updG losses init
      = (.ok (runEpochs updC updG losses cfg.criticSteps (numRows / cfg.batchSize)
          cfg.epochs init 0).1,
        (runEpochs updC updG losses cfg.criticSteps (numRows / cfg.batchSize)
          cfg.epochs init 0).2) := by
    simp [runTraining, hval]
  have htrace : (runTraining cfg numRows updC updG losses init).2
      = List.flatten (List.replicate (cfg.epochs * (numRows / cfg.batchSize))
          (List.replicate cfg.criticSteps Step.critic ++ [Step.gen])) := by
    rw [hrt, hep]
    exact join_replicate_mul cfg.epochs (numRows / cfg.batchSize) _
  refine ⟨?_, htrace, ?_, ?_, rfl⟩
  · rw [hrt, hep]
  · rw [htrace, count_join_replicate]
    simp [List.count_append, List.count_replicate]
  · rw [htrace, count_join_replicate]
    simp [List.count_append, List.count_replicate]

/-- C6 witness: the iteration-structure theorem applied to a concrete
configuration (2 epochs, batch 2, pac 1, k = 1) over 4 data rows. -/
theorem claim6_witness :
    validateConfig ⟨2, 2, 1, 1⟩ = .ok () ∧
    (runTraining ⟨2, 2, 1, 1⟩ 4 (fun (par : ℕ) _ => par + 1) (fun par _ => par + 1)
        (fun _ => some 1) 0).2
      = List.flatten (List.replicate (2 * (4 / 2)) (List.replicate 1 Step.critic ++ [Step.gen])) :=
  ⟨rfl,
    (claim6_iteration_structure ⟨2, 2, 1, 1⟩ 4 (fun par _ => par + 1) (fun par _ => par + 1)
      (fun _ => some 1) 0 rfl (fun _ => Option.some_ne_none 1)).2.1⟩

/-- C7: if a loss value becomes non-finite (NaN/Inf, modelled as `none`)
at any step inside the planned run, the Training Loop aborts with
`NonFiniteLossError`, and the committed parameters are exactly those of
the end of the last completed epoch (the pure parameter evolution after
`bad / losses_per_epoch` epochs): no partial update from the failed
epoch or step is retained. -/
theorem claim7_nonfinite_abort (cfg : TrainConfig) (numRows : ℕ) (updC updG : P → ℚ → P)
    (losses : ℕ → Option ℚ) (init : P) (bad : ℕ)
    (hval : validateConfig cfg = .ok ())
    (hipe : 0 < numRows / cfg.batchSize)
    (hbad : losses bad = none)
    (hfin : ∀ m, m < bad → losses m ≠ none)
    (hlt : bad < cfg.epochs * ((numRows / cfg.batchSize) * (cfg.criticSteps + 1))) :
    (runTraining cfg numRows updC updG losses init).1
      = .ok (.nonFiniteLossError
          (pureEpochs updC updG losses cfg.criticSteps (numRows / cfg.batchSize)
            (bad / ((numRows / cfg.batchSize) * (cfg.criticSteps + 1))) init 0).1) := by
  have hab := runEpochs_abort updC updG losses bad hbad hfin cfg.criticSteps
    (numRows / cfg.batchSize) hipe cfg.epochs init 0 (Nat.zero_le bad) (by omega)
  have hrt : (runTraining cfg numRows updC updG losses init).1
      = .ok ((runEpochs updC updG losses cfg.criticSteps (numRows / cfg.batchSize)
          cfg.epochs init 0).1) := by
    simp [runTraining, hval]
  rw [hrt, hab]
  simp

/-- C7 witness: the non-finite-abort theorem applied to a concrete run
(2 epochs of 2 outer iterations, k = 1) whose loss stream turns NaN at
step index 5, i.e. inside the second epoch: training aborts and commits
the parameters of epoch 1. -/
theorem claim7_witness :
    (fun n => if n < 5 then some (1 : ℚ) else none) 5 = none ∧
    (runTraining ⟨2, 2, 1, 1⟩ 4 (fun (par : ℕ) _ => par + 1) (fun par _ => par + 1)
        (fun n => if n < 5 then some (1 : ℚ) else none) 0).1
      = .ok (.nonFiniteLossError
          (pureEpochs (fun (par : ℕ) _ => par + 1) (fun par _ => par + 1)
            (fun n => if n < 5 then some (1 : ℚ) else none) 1 2 1 0 0).1) :=
  ⟨rfl,
    claim7_nonfinite_abort ⟨2, 2, 1, 1⟩ 4 (fun par _ => par + 1) (fun par _ => par + 1)
      (fun n => if n < 5 then some (1 : ℚ) else none) 0 5
      rfl (by decide) rfl (by decide) (by decide)⟩

/-! ## Theorems: inference sampler, fitting, reproducibility -/

/-- Decoding any transformed row of the right width yields a row that
conforms to the fitted schema cell by cell. -/
theorem rowSchemaOK_decodeRow :
    ∀ (schema : List ColSpec) (data : List ℚ), SchemaValid schema →
      data.length = rowWidth schema → RowSchemaOK schema (decodeRow schema data) := by
  intro schema
  induction schema with
  | nil => intro data _ _; exact ⟨⟩
  | cons c cs ih =>
    intro data hv hlen
    obtain ⟨nm, k⟩ := c
    have hv1 : ColKind.Valid k := hv ⟨nm, k⟩ (List.mem_cons_self _ _)
    have hv2 : SchemaValid cs := fun c' hc' => hv c' (List.mem_cons_of_mem _ hc')
    have hwidth : rowWidth (⟨nm, k⟩ :: cs) = k.width + rowWidth cs := by
      simp [rowWidth]
    have hwle : k.width ≤ data.length := by
      rw [hlen, hwidth]
      omega
    have htl : (data.drop k.width).length = rowWidth cs := by
      rw [List.length_drop, hlen, hwidth]
      omega
    refine ⟨?_, ih (data.drop k.width) hv2 htl⟩
    cases k with
    | continuous modes => exact ⟨⟩
    | discrete numCats =>
      have hpos : 0 < numCats := hv1
      have hblock : (data.take numCats).length = numCats := by
        rw [List.length_take]
        exact Nat.min_eq_left hwle
      have hne : data.take numCats ≠ [] := by
        intro h0
        rw [h0] at hblock
        simp at hblock
        omega
      have hsel := selectMode_lt_length (data.take numCats) hne
      rw [hblock] at hsel
      exact hsel
    | datetime modes fmt =>
      show formatDT fmt (parseDT fmt (formatDT fmt _)) = formatDT fmt _
      rw [parseDT_formatDT]

/-- C8: for every fitted model (schema and generator producing rows of
the fitted width) and every `n ≥ 0`, `sample(n)` returns a table with
exactly `n` rows whose column names, order and cell types are identical
to the input schema; for datetime columns the emitted values round-trip
through the `datetime_format` declared in the schema. -/
theorem claim8_sample_schema (g : ℕ → List ℚ) (schema : List ColSpec) (n : ℕ)
    (hv : SchemaValid schema) (hg : ∀ j, (g j).length = rowWidth schema) :
    (sample g schema n).rows.length = n ∧
    (sample g schema n).header = schema.map (fun c => c.colName) ∧
    ∀ r ∈ (sample g schema n).rows, RowSchemaOK schema r := by
  refine ⟨by simp [sample], rfl, ?_⟩
  intro r hr
  simp only [sample, List.mem_map] at hr
  obtain ⟨j, _, rfl⟩ := hr
  exact rowSchemaOK_decodeRow schema (g j) hv (hg j)

/-- C8 witness: the sampler theorem applied to a concrete two-column
schema (a datetime column with format radix 10 and a discrete column)
and a concrete generator output. -/
theorem claim8_witness :
    (sample (fun _ => [1, 1, 0, 1])
        [⟨"when", .datetime [⟨1, 0, 1⟩] 10⟩, ⟨"tier", .discrete 2⟩] 3).rows.length = 3 ∧
    (sample (fun _ => [1, 1, 0, 1])
        [⟨"when", .datetime [⟨1, 0, 1⟩] 10⟩, ⟨"tier", .discrete 2⟩] 3).header
      = ([⟨"when", .datetime [⟨1, 0, 1⟩] 10⟩, ⟨"tier", .discrete 2⟩] : List ColSpec).map
          (fun c => c.colName) ∧
    ∀ r ∈ (sample (fun _ => [1, 1, 0, 1])
        [⟨"when", .datetime [⟨1, 0, 1⟩] 10⟩, ⟨"tier", .discrete 2⟩] 3).rows,
      RowSchemaOK [⟨"when", .datetime [⟨1, 0, 1⟩] 10⟩, ⟨"tier", .discrete 2⟩] r :=
  claim8_sample_schema (fun _ => [1, 1, 0, 1])
    [⟨"when", .datetime [⟨1, 0, 1⟩] 10⟩, ⟨"tier", .discrete 2⟩] 3
    (by with_unfolding_all decide) (fun _ => rfl)

/-- C9: `fit_continuous(values)` ignores missing values (fitting the
column is invariant under dropping its missing entries) and raises
`DegenerateColumnError` — carrying no fit state — exactly when the
column has fewer than 2 distinct finite values; on success the fitted
Mode set is a valid bounded mixture (nonempty, positive stds, weights
summing to 1, at most 10 components). -/
theorem claim9_fit_continuous (values : List (Option ℚ)) :
    (fit_continuous values = .error .degenerate ↔ distinctFiniteCount values < 2) ∧
    fit_continuous values = fit_continuous ((finiteVals values).map some) ∧
    ∀ ms, fit_continuous values = .ok ms →
      ms ≠ [] ∧ (∀ m ∈ ms, 0 < m.std) ∧ (ms.map Mode.weight).sum = 1 ∧ ms.length ≤ 10 := by
  have hmapsome : ∀ l : List ℚ, List.filterMap id (l.map some) = l := by
    intro l
    induction l with
    | nil => rfl
    | cons a t ihl => simp [List.filterMap_cons, ihl]
  have hfv : finiteVals ((finiteVals values).map some) = finiteVals values := by
    unfold finiteVals
    exact hmapsome _
  refine ⟨?_, ?_, ?_⟩
  · unfold fit_continuous distinctFiniteCount
    by_cases h : (finiteVals values).dedup.length < 2
    · simp [h]
    · simp [h]
  · unfold fit_continuous
    rw [hfv]
  · intro ms hms
    unfold fit_continuous at hms
    by_cases h : (finiteVals values).dedup.length < 2
    · rw [if_pos h] at hms
      exact absurd hms (by simp)
    · rw [if_neg h] at hms
      have hms' : [(⟨1, ((finiteVals values).dedup.getD 0 0 + (finiteVals values).dedup.getD 1 0) / 2,
          |(finiteVals values).dedup.getD 1 0 - (finiteVals values).dedup.getD 0 0| / 8⟩ : Mode)]
          = ms := by
        injection hms
      subst hms'
      have hnodup := List.nodup_dedup (finiteVals values)
      have h0 : 0 < (finiteVals values).dedup.length := by omega
      have h1 : 1 < (finiteVals values).dedup.length := by omega
      have hne : (finiteVals values).dedup.getD 0 0 ≠ (finiteVals values).dedup.getD 1 0 := by
        rw [List.getD_eq_getElem _ _ h0, List.getD_eq_getElem _ _ h1]
        intro heq
        have h01 := (List.Nodup.getElem_inj_iff hnodup).mp heq
        omega
      refine ⟨by simp, ?_, by simp, by norm_num⟩
      intro m hm
      simp only [List.mem_singleton] at hm
      subst hm
      show 0 < |(finiteVals values).dedup.getD 1 0 - (finiteVals values).dedup.getD 0 0| / 8
      apply div_pos _ (by norm_num)
      rw [abs_pos, sub_ne_zero]
      exact fun heq => hne heq.symm

/-- C9 witness: the fitting theorem applied to a column with missing
entries and two distinct finite values, and a degenerate column with a
single repeated finite value. -/
theorem claim9_witness :
    fit_continuous [some 1, none, some 1] = .error .degenerate ∧
    (fit_continuous [some 1, none, some 3] = .error .degenerate ↔
      distinctFiniteCount [some 1, none, some 3] < 2) ∧
    fit_continuous [some 1, none, some 3]
      = fit_continuous ((finiteVals [some 1, none, some 3]).map some) :=
  ⟨by with_unfolding_all rfl,
    (claim9_fit_continuous [some 1, none, some 3]).1,
    (claim9_fit_continuous [some 1, none, some 3]).2.1⟩

/-- C10: all randomness of the core pipeline comes from the injectable
seed-controlled random source: two runs of fit followed by sample on the
same input table, configuration, row counts and seed produce identical
trained parameters and identical synthetic output. -/
theorem claim10_reproducibility (cols : List (String × List (Option ℚ))) (cfg : TrainConfig)
    (numRows nSamples seed1 seed2 : ℕ) (h : seed1 = seed2) :
    fitAndSample cols cfg numRows nSamples seed1 = fitAndSample cols cfg numRows nSamples seed2 := by
  rw [h]

/-- C10 witness: the reproducibility theorem applied to a concrete input
table, configuration and seed. -/
theorem claim10_witness :
    (42 : ℕ) = 42 ∧
    fitAndSample [("a", [some 0, some 1])] ⟨1, 1, 1, 1⟩ 1 1 42
      = fitAndSample [("a", [some 0, some 1])] ⟨1, 1, 1, 1⟩ 1 1 42 :=
  ⟨rfl, claim10_reproducibility [("a", [some 0, some 1])] ⟨1, 1, 1, 1⟩ 1 1 42 42 rfl⟩

end CTGAN
